/-
Verification of the video frame-diff engine in
selfdrive/ui/tests/diff/diff.py.

The core pipeline under verification:
  * `compute_diff_chunks` calls `difflib.SequenceMatcher(a, b, autojunk=False)
    .get_opcodes()`, drops `equal` opcodes and turns the rest into `Chunk`
    records;
  * `main` computes the headline differing-frame count
    `sum(max(c.v1_count, c.v2_count) for c in chunks)`;
  * `generate_html_report` classifies the result from that count;
  * `extract_clip` computes a frames-written count from the padding
    constants;
  * `extract_chunk_clips.process_chunk` decides which clips exist per chunk.

The sequence aligner is CPython's `difflib.SequenceMatcher` with
`autojunk=False` and no junk predicate.  In that configuration
`find_longest_match(alo, ahi, blo, bhi)` returns the longest matching
contiguous block inside the window, preferring the smallest start in `a`,
then the smallest start in `b` (the junk-extension loops of the CPython
source never fire when the junk set is empty, and the scan of run *ends*
in increasing (i, j) order with a strictly-greater update is equivalent to
the scan of run *starts* below).  `get_matching_blocks` recurses on the
sub-windows before and after the best block (CPython drives the recursion
with an explicit stack and then sorts; the blocks are pairwise ordered, so
in-order recursion produces exactly the sorted list), merges adjacent
blocks, and appends the `(len(a), len(b), 0)` sentinel.  `get_opcodes`
then walks the blocks with a cursor, emitting replace/delete/insert gap
opcodes and `equal` opcodes.

Frame hashes are modelled as an arbitrary type with decidable equality;
subprocess effects (ffmpeg invocations, file paths) are out of scope and
only the pure data computed from them is embedded.
-/
import Mathlib

namespace VideoDiff

variable {α : Type} [DecidableEq α]

/-- Opcode/chunk tag: `difflib` tags are the strings
`"equal" / "replace" / "insert" / "delete"`; `Chunk.type` copies the tag. -/
inductive Tag where
  | equal
  | replace
  | insert
  | delete
deriving DecidableEq, Repr

/-- A matching block `(i, j, size)` as returned by
`SequenceMatcher.find_longest_match` / listed by `get_matching_blocks`. -/
structure MatchBlock where
  ai : Nat
  bj : Nat
  size : Nat
deriving DecidableEq, Repr

/-- `a[i] == b[j]`, with out-of-range indices never matching. -/
def sameAt (a b : List α) (i j : Nat) : Bool :=
  match a[i]?, b[j]? with
  | some x, some y => decide (x = y)
  | _, _ => false

/-- Length of the common run of `a` and `b` starting at `(i, j)`, stopping
at the window bound `bhi` in `b`; the window bound in `a` is encoded by the
fuel argument (`fuel = ahi - i` at the call site). -/
def matchLenAux (a b : List α) (bhi : Nat) : Nat → Nat → Nat → Nat
  | 0, _, _ => 0
  | fuel + 1, i, j =>
    if j < bhi then
      if sameAt a b i j then 1 + matchLenAux a b bhi fuel (i + 1) (j + 1) else 0
    else 0

/-- Length of the common run of `a` and `b` starting at `(i, j)` inside the
window `[·, ahi) × [·, bhi)`. -/
def matchLen (a b : List α) (ahi bhi i j : Nat) : Nat :=
  matchLenAux a b bhi (ahi - i) i j

/-- `SequenceMatcher.find_longest_match(alo, ahi, blo, bhi)` with an empty
junk set: the longest matching block in the window, preferring the smallest
`i`, then the smallest `j`; `(alo, blo, 0)` when the window has no match. -/
def find_longest_match (a b : List α) (alo ahi blo bhi : Nat) : MatchBlock :=
  (List.range' alo (ahi - alo)).foldl (fun best i =>
    (List.range' blo (bhi - blo)).foldl (fun best j =>
      let k := matchLen a b ahi bhi i j
      if best.size < k then ⟨i, j, k⟩ else best) best)
    ⟨alo, blo, 0⟩

/-- The recursive core of `get_matching_blocks`: find the longest match of
the window, recurse on the sub-windows before and after it.  The fuel is an
upper bound on the recursion depth (any `fuel > ahi - alo` gives the full
recursion, since each sub-window is strictly smaller). -/
def matchingBlocksRec (a b : List α) : Nat → Nat → Nat → Nat → Nat → List MatchBlock
  | 0, _, _, _, _ => []
  | fuel + 1, alo, ahi, blo, bhi =>
    let m := find_longest_match a b alo ahi blo bhi
    if 0 < m.size then
      (if alo < m.ai ∧ blo < m.bj then
        matchingBlocksRec a b fuel alo m.ai blo m.bj else [])
      ++ m ::
      (if m.ai + m.size < ahi ∧ m.bj + m.size < bhi then
        matchingBlocksRec a b fuel (m.ai + m.size) ahi (m.bj + m.size) bhi else [])
    else []

/-- The adjacent-block merge loop of `get_matching_blocks` (state
`(i1, j1, k1)`, initially `(0, 0, 0)`; a block adjacent to the current one
is absorbed, otherwise the current block is emitted if non-empty). -/
def mergeAdjacent : Nat → Nat → Nat → List MatchBlock → List MatchBlock
  | i1, j1, k1, [] => if k1 ≠ 0 then [⟨i1, j1, k1⟩] else []
  | i1, j1, k1, ⟨i2, j2, k2⟩ :: rest =>
    if i1 + k1 = i2 ∧ j1 + k1 = j2 then
      mergeAdjacent i1 j1 (k1 + k2) rest
    else
      (if k1 ≠ 0 then [⟨i1, j1, k1⟩] else []) ++ mergeAdjacent i2 j2 k2 rest

/-- `SequenceMatcher.get_matching_blocks()`: the recursively found blocks,
adjacent ones merged, with the `(len(a), len(b), 0)` sentinel appended. -/
def get_matching_blocks (a b : List α) : List MatchBlock :=
  mergeAdjacent 0 0 0
    (matchingBlocksRec a b (a.length + 1) 0 a.length 0 b.length)
  ++ [⟨a.length, b.length, 0⟩]

/-- One opcode `(tag, a1, a2, b1, b2)` of `get_opcodes`: half-open ranges
`[a1, a2)` into `a` and `[b1, b2)` into `b`. -/
structure Op where
  tag : Tag
  a1 : Nat
  a2 : Nat
  b1 : Nat
  b2 : Nat
deriving DecidableEq, Repr

/-- The cursor walk of `get_opcodes` over the matching blocks: from cursor
`(i, j)`, a block `(ai, bj, size)` first yields a replace/delete/insert
opcode for the gap `[i, ai) × [j, bj)` (if any), then an `equal` opcode for
the block itself (if non-empty). -/
def opcodesGo : Nat → Nat → List MatchBlock → List Op
  | _, _, [] => []
  | i, j, ⟨ai, bj, size⟩ :: rest =>
    (if i < ai ∧ j < bj then [⟨Tag.replace, i, ai, j, bj⟩]
     else if i < ai then [⟨Tag.delete, i, ai, j, bj⟩]
     else if j < bj then [⟨Tag.insert, i, ai, j, bj⟩]
     else [])
    ++ (if 0 < size then [⟨Tag.equal, ai, ai + size, bj, bj + size⟩] else [])
    ++ opcodesGo (ai + size) (bj + size) rest

/-- `SequenceMatcher.get_opcodes()`. -/
def get_opcodes (a b : List α) : List Op :=
  opcodesGo 0 0 (get_matching_blocks a b)

/-- `Chunk` dataclass of diff.py.  All fields are Python ints; the
inclusive ends `v1_end = i2 - 1` / `v2_end = j2 - 1` can be `-1`, so the
fields are integers. -/
structure Chunk where
  type : Tag
  v1_start : Int
  v1_end : Int
  v1_count : Int
  v2_start : Int
  v2_end : Int
  v2_count : Int
deriving DecidableEq, Repr

/-- `compute_diff_chunks`: drop `equal` opcodes, convert the rest to
`Chunk` records (`v1_start = i1`, `v1_end = i2 - 1`, `v1_count = i2 - i1`,
and likewise for `v2_*`). -/
def compute_diff_chunks (hashes1 hashes2 : List α) : List Chunk :=
  ((get_opcodes hashes1 hashes2).filter (fun op => !(op.tag = Tag.equal))).map
    (fun op =>
      { type := op.tag,
        v1_start := (op.a1 : Int), v1_end := (op.a2 : Int) - 1,
        v1_count := (op.a2 : Int) - (op.a1 : Int),
        v2_start := (op.b1 : Int), v2_end := (op.b2 : Int) - 1,
        v2_count := (op.b2 : Int) - (op.b1 : Int) })

/-- `main`'s headline count:
`diff_frame_count = sum(max(c.v1_count, c.v2_count) for c in chunks)`. -/
def diff_frame_count (hashes1 hashes2 : List α) : Int :=
  ((compute_diff_chunks hashes1 hashes2).map
    (fun c => max c.v1_count c.v2_count)).sum

/-- `generate_html_report`'s branch on the result text: the "identical"
message is chosen iff `diff_frame_count == 0`. -/
def result_is_identical (count : Int) : Bool :=
  count = 0

/-- `total_frames = max(frame_counts)` in `generate_html_report`. -/
def total_frames (frame_counts : Nat × Nat) : Nat :=
  max frame_counts.1 frame_counts.2

/-- `frame_delta = frame_counts[1] - frame_counts[0]`. -/
def frame_delta (frame_counts : Nat × Nat) : Int :=
  (frame_counts.2 : Int) - (frame_counts.1 : Int)

/-- `CLIP_PADDING_BEFORE` (extra context frames before each chunk). -/
def CLIP_PADDING_BEFORE : Int := 0

/-- `CLIP_PADDING_AFTER` (extra context frames after each chunk). -/
def CLIP_PADDING_AFTER : Int := 0

/-- The frames-written count returned by `extract_clip`:
`padded_start = max(0, start_frame - CLIP_PADDING_BEFORE)`,
`padding_before = start_frame - padded_start`, and the returned
`total_frames = (end_frame - start_frame + 1) + padding_before +
CLIP_PADDING_AFTER` (the ffmpeg invocation itself is out of scope). -/
def extract_clip_total_frames (start_frame end_frame : Int) : Int :=
  let padded_start := max 0 (start_frame - CLIP_PADDING_BEFORE)
  let padding_before := start_frame - padded_start
  (end_frame - start_frame + 1) + padding_before + CLIP_PADDING_AFTER

/-- The `clips` dict built by `process_chunk`: which of the three clips
were produced for the chunk.  File paths are abstracted to the chunk index
used in the `f"{i:03d}_*"` file names. -/
structure ClipSet where
  video1 : Option Nat
  video2 : Option Nat
  diff : Option Nat
deriving DecidableEq, Repr

/-- The per-chunk record returned by `process_chunk` (clip set, thumbnail
frame, and the six chunk fields re-emitted verbatim into the report). -/
structure ChunkRecord where
  type : Tag
  clips : ClipSet
  thumb_frame : Int
  v1_start : Int
  v1_end : Int
  v1_count : Int
  v2_start : Int
  v2_end : Int
  v2_count : Int
deriving DecidableEq, Repr

/-- `process_chunk(i, chunk)` of `extract_chunk_clips`: the video1 clip is
extracted unless the chunk is an `insert`, the video2 clip unless it is a
`delete`, the diff clip only for a `replace`; the thumbnail frame is
`padding_used + content_count // 2` (Python floor division). -/
def process_chunk (i : Nat) (chunk : Chunk) : ChunkRecord :=
  let clips0 : ClipSet := ⟨none, none, none⟩
  let clips1 := if chunk.type ≠ Tag.insert then
    { clips0 with video1 := some i } else clips0
  let clips2 := if chunk.type ≠ Tag.delete then
    { clips1 with video2 := some i } else clips1
  let clips3 := if chunk.type = Tag.replace then
    { clips2 with diff := some i } else clips2
  let padding_used := min
    (if chunk.type ≠ Tag.insert then chunk.v1_start else chunk.v2_start)
    CLIP_PADDING_BEFORE
  let content_count :=
    if chunk.type ≠ Tag.insert then chunk.v1_count else chunk.v2_count
  let thumb_frame := padding_used + Int.fdiv content_count 2
  { type := chunk.type, clips := clips3, thumb_frame := thumb_frame,
    v1_start := chunk.v1_start, v1_end := chunk.v1_end,
    v1_count := chunk.v1_count,
    v2_start := chunk.v2_start, v2_end := chunk.v2_end,
    v2_count := chunk.v2_count }

/-- Modelled from the spec: the tolerance-based chunking mode
(`compute_chunks`) is not present under src/ — only the alignment-based
mode is; §4.2 ChunkBuilder "alternate policy" and §8 "Tolerance-merge
mode" describe it.  Helper: walk the remaining differing indices with the
previous index and the current chunk (accumulated in reverse); an index is
merged into the current chunk when the gap of identical frames
`x - prev - 1` is at most `max_same`, otherwise it starts a new chunk. -/
def computeChunksGo (max_same : Nat) : List Nat → Nat → List Nat → List (List Nat)
  | [], _, cur => [cur.reverse]
  | x :: rest, prev, cur =>
    if x - prev - 1 ≤ max_same then
      computeChunksGo max_same rest x (x :: cur)
    else
      cur.reverse :: computeChunksGo max_same rest x [x]

/-- Modelled from the spec: `compute_chunks(differing_indices,
max_same_frames)` groups an ascending list of differing frame indices into
chunks, merging two consecutive differing indices into the same chunk iff
the run of identical frames between them has length `≤ max_same_frames`. -/
def compute_chunks (indices : List Nat) (max_same_frames : Nat) : List (List Nat) :=
  match indices with
  | [] => []
  | x :: rest => computeChunksGo max_same_frames rest x [x]

/-! ### Basic facts about `sameAt` and `matchLen` -/

lemma sameAt_eq {a b : List α} {i j : Nat} (h : sameAt a b i j = true) :
    a[i]? = b[j]? := by
  unfold sameAt at h
  rcases ha : a[i]? with _ | x <;> rcases hb : b[j]? with _ | y <;>
    rw [ha, hb] at h <;> simp_all

lemma matchLenAux_le_fuel (a b : List α) (bhi : Nat) :
    ∀ fuel i j, matchLenAux a b bhi fuel i j ≤ fuel := by
  intro fuel
  induction fuel with
  | zero => intro i j; simp [matchLenAux]
  | succ fuel ih =>
    intro i j
    simp only [matchLenAux]
    split
    · split
      · have := ih (i + 1) (j + 1)
        omega
      · omega
    · omega

lemma matchLenAux_le_b (a b : List α) (bhi : Nat) :
    ∀ fuel i j, matchLenAux a b bhi fuel i j ≤ bhi - j := by
  intro fuel
  induction fuel with
  | zero => intro i j; simp [matchLenAux]
  | succ fuel ih =>
    intro i j
    simp only [matchLenAux]
    split
    · split
      · have := ih (i + 1) (j + 1)
        omega
      · omega
    · omega

lemma matchLenAux_sameAt (a b : List α) (bhi : Nat) :
    ∀ fuel i j t, t < matchLenAux a b bhi fuel i j →
      sameAt a b (i + t) (j + t) = true := by
  intro fuel
  induction fuel with
  | zero => intro i j t ht; simp [matchLenAux] at ht
  | succ fuel ih =>
    intro i j t ht
    simp only [matchLenAux] at ht
    split at ht
    · split at ht
      case isTrue hsame =>
        match t with
        | 0 => simpa using hsame
        | t' + 1 =>
          have := ih (i + 1) (j + 1) t' (by omega)
          have e1 : i + 1 + t' = i + (t' + 1) := by omega
          have e2 : j + 1 + t' = j + (t' + 1) := by omega
          rwa [e1, e2] at this
      · omega
    · omega

lemma matchLen_le_a (a b : List α) (ahi bhi i j : Nat) :
    matchLen a b ahi bhi i j ≤ ahi - i :=
  matchLenAux_le_fuel a b bhi (ahi - i) i j

lemma matchLen_le_b (a b : List α) (ahi bhi i j : Nat) :
    matchLen a b ahi bhi i j ≤ bhi - j :=
  matchLenAux_le_b a b bhi (ahi - i) i j

lemma matchLen_sameAt (a b : List α) (ahi bhi i j : Nat) :
    ∀ t < matchLen a b ahi bhi i j, sameAt a b (i + t) (j + t) = true :=
  fun t ht => matchLenAux_sameAt a b bhi (ahi - i) i j t ht

/-! ### Soundness of `find_longest_match` -/

/-- The invariant maintained by the search fold of `find_longest_match`:
the running best is either the initial `(alo, blo, 0)` or an in-window
start annotated with its exact run length. -/
def FLMInv (a b : List α) (alo ahi blo bhi : Nat) (m : MatchBlock) : Prop :=
  m = ⟨alo, blo, 0⟩ ∨
    (alo ≤ m.ai ∧ m.ai < ahi ∧ blo ≤ m.bj ∧ m.bj < bhi ∧
     m.size = matchLen a b ahi bhi m.ai m.bj)

lemma find_longest_match_spec (a b : List α) (alo ahi blo bhi : Nat) :
    FLMInv a b alo ahi blo bhi (find_longest_match a b alo ahi blo bhi) := by
  unfold find_longest_match
  refine List.foldlRecOn _ _ _ (Or.inl rfl) ?_
  intro best hbest i hi
  refine List.foldlRecOn _ _ _ hbest ?_
  intro best2 hbest2 j hj
  dsimp only
  split
  · right
    have hi2 := List.mem_range'_1.mp hi
    have hj2 := List.mem_range'_1.mp hj
    exact ⟨hi2.1, by show i < ahi; omega, hj2.1, by show j < bhi; omega, rfl⟩
  · exact hbest2

lemma find_longest_match_bounds (a b : List α) (alo ahi blo bhi : Nat)
    (ha : alo ≤ ahi) (hb : blo ≤ bhi) :
    alo ≤ (find_longest_match a b alo ahi blo bhi).ai ∧
    blo ≤ (find_longest_match a b alo ahi blo bhi).bj ∧
    (find_longest_match a b alo ahi blo bhi).ai +
      (find_longest_match a b alo ahi blo bhi).size ≤ ahi ∧
    (find_longest_match a b alo ahi blo bhi).bj +
      (find_longest_match a b alo ahi blo bhi).size ≤ bhi := by
  rcases find_longest_match_spec a b alo ahi blo bhi with h | ⟨h1, h2, h3, h4, h5⟩
  · rw [h]
    exact ⟨le_refl _, le_refl _, by simp; omega, by simp; omega⟩
  · have ha2 := matchLen_le_a a b ahi bhi
      (find_longest_match a b alo ahi blo bhi).ai
      (find_longest_match a b alo ahi blo bhi).bj
    have hb2 := matchLen_le_b a b ahi bhi
      (find_longest_match a b alo ahi blo bhi).ai
      (find_longest_match a b alo ahi blo bhi).bj
    rw [← h5] at ha2 hb2
    exact ⟨h1, h3, by omega, by omega⟩

lemma find_longest_match_matches (a b : List α) (alo ahi blo bhi : Nat) :
    ∀ t < (find_longest_match a b alo ahi blo bhi).size,
      sameAt a b ((find_longest_match a b alo ahi blo bhi).ai + t)
        ((find_longest_match a b alo ahi blo bhi).bj + t) = true := by
  intro t ht
  rcases find_longest_match_spec a b alo ahi blo bhi with h | ⟨_, _, _, _, h5⟩
  · rw [h] at ht
    exact absurd ht (by simp)
  · rw [h5] at ht
    exact matchLen_sameAt a b ahi bhi _ _ t ht

/-! ### The chain invariant on matching blocks

`Chained i j l e1 e2` says that starting from cursor `(i, j)` the blocks of
`l` lie in increasing, non-overlapping order and every cursor reached stays
within `(e1, e2)` — exactly the ordering discipline `get_opcodes` relies
on. -/

def Chained : Nat → Nat → List MatchBlock → Nat → Nat → Prop
  | i, j, [], e1, e2 => i ≤ e1 ∧ j ≤ e2
  | i, j, m :: rest, e1, e2 =>
    i ≤ m.ai ∧ j ≤ m.bj ∧ Chained (m.ai + m.size) (m.bj + m.size) rest e1 e2

lemma chained_mono_front {i j i' j' e1 e2 : Nat} {l : List MatchBlock}
    (hi : i' ≤ i) (hj : j' ≤ j) (h : Chained i j l e1 e2) :
    Chained i' j' l e1 e2 := by
  cases l with
  | nil => exact ⟨le_trans hi h.1, le_trans hj h.2⟩
  | cons m rest => exact ⟨le_trans hi h.1, le_trans hj h.2.1, h.2.2⟩

lemma chained_append {i j p q e1 e2 : Nat} {l₁ l₂ : List MatchBlock}
    (h1 : Chained i j l₁ p q) (h2 : Chained p q l₂ e1 e2) :
    Chained i j (l₁ ++ l₂) e1 e2 := by
  induction l₁ generalizing i j with
  | nil => exact chained_mono_front h1.1 h1.2 h2
  | cons m rest ih => exact ⟨h1.1, h1.2.1, ih h1.2.2⟩

/-! ### Invariants of the block recursion -/

lemma matchingBlocksRec_chained (a b : List α) :
    ∀ fuel alo ahi blo bhi, alo ≤ ahi → blo ≤ bhi →
      Chained alo blo (matchingBlocksRec a b fuel alo ahi blo bhi) ahi bhi := by
  intro fuel
  induction fuel with
  | zero => intro alo ahi blo bhi ha hb; exact ⟨ha, hb⟩
  | succ fuel ih =>
    intro alo ahi blo bhi ha hb
    simp only [matchingBlocksRec]
    obtain ⟨h1, h2, h3, h4⟩ := find_longest_match_bounds a b alo ahi blo bhi ha hb
    split
    · refine chained_append (p := (find_longest_match a b alo ahi blo bhi).ai)
        (q := (find_longest_match a b alo ahi blo bhi).bj) ?_ ?_
      · split
        case isTrue h5 => exact ih alo _ blo _ (le_of_lt h5.1) (le_of_lt h5.2)
        case isFalse h5 => exact ⟨h1, h2⟩
      · refine ⟨le_refl _, le_refl _, ?_⟩
        split
        case isTrue h5 => exact ih _ ahi _ bhi (le_of_lt h5.1) (le_of_lt h5.2)
        case isFalse h5 => exact ⟨h3, h4⟩
    · exact ⟨ha, hb⟩

lemma matchingBlocksRec_matches (a b : List α) :
    ∀ fuel alo ahi blo bhi, ∀ blk ∈ matchingBlocksRec a b fuel alo ahi blo bhi,
      ∀ t < blk.size, sameAt a b (blk.ai + t) (blk.bj + t) = true := by
  intro fuel
  induction fuel with
  | zero => intro alo ahi blo bhi blk hblk; exact absurd hblk (List.not_mem_nil _)
  | succ fuel ih =>
    intro alo ahi blo bhi blk hblk
    simp only [matchingBlocksRec] at hblk
    split at hblk
    case isTrue hpos =>
      rcases List.mem_append.mp hblk with hleft | hrest
      · split at hleft
        case isTrue h5 => exact ih _ _ _ _ blk hleft
        case isFalse h5 => exact absurd hleft (List.not_mem_nil _)
      · rcases List.mem_cons.mp hrest with rfl | hright
        · exact find_longest_match_matches a b alo ahi blo bhi
        · split at hright
          case isTrue h5 => exact ih _ _ _ _ blk hright
          case isFalse h5 => exact absurd hright (List.not_mem_nil _)
    case isFalse hpos => exact absurd hblk (List.not_mem_nil _)

/-! ### Invariants of the adjacent-block merge -/

lemma mergeAdjacent_chained {e1 e2 : Nat} :
    ∀ (l : List MatchBlock) (i1 j1 k1 : Nat),
      Chained (i1 + k1) (j1 + k1) l e1 e2 →
      Chained i1 j1 (mergeAdjacent i1 j1 k1 l) e1 e2 := by
  intro l
  induction l with
  | nil =>
    intro i1 j1 k1 h
    have h' : i1 + k1 ≤ e1 ∧ j1 + k1 ≤ e2 := h
    simp only [mergeAdjacent]
    split
    · exact ⟨le_refl _, le_refl _, h⟩
    · exact ⟨by omega, by omega⟩
  | cons m rest ih =>
    intro i1 j1 k1 h
    obtain ⟨h1, h2, h3⟩ := h
    cases m with
    | mk i2 j2 k2 =>
      have h1' : i1 + k1 ≤ i2 := h1
      have h2' : j1 + k1 ≤ j2 := h2
      have h3' : Chained (i2 + k2) (j2 + k2) rest e1 e2 := h3
      simp only [mergeAdjacent]
      split
      case isTrue hadj =>
        refine ih i1 j1 (k1 + k2) ?_
        have e1 : i1 + (k1 + k2) = i2 + k2 := by omega
        have e2 : j1 + (k1 + k2) = j2 + k2 := by omega
        rw [e1, e2]
        exact h3'
      case isFalse hadj =>
        have hrec := ih i2 j2 k2 h3'
        split
        · exact ⟨le_refl _, le_refl _, chained_mono_front h1' h2' hrec⟩
        · exact chained_mono_front (by omega) (by omega) hrec

lemma mergeAdjacent_matches {a b : List α} :
    ∀ (l : List MatchBlock) (i1 j1 k1 : Nat),
      (∀ t < k1, sameAt a b (i1 + t) (j1 + t) = true) →
      (∀ blk ∈ l, ∀ t < blk.size, sameAt a b (blk.ai + t) (blk.bj + t) = true) →
      ∀ blk ∈ mergeAdjacent i1 j1 k1 l, ∀ t < blk.size,
        sameAt a b (blk.ai + t) (blk.bj + t) = true := by
  intro l
  induction l with
  | nil =>
    intro i1 j1 k1 hcur hl blk hblk
    simp only [mergeAdjacent] at hblk
    split at hblk
    · rcases List.mem_singleton.mp hblk with rfl
      exact hcur
    · exact absurd hblk (List.not_mem_nil _)
  | cons m rest ih =>
    intro i1 j1 k1 hcur hl blk hblk
    cases m with
    | mk i2 j2 k2 =>
      have hm := hl ⟨i2, j2, k2⟩ (List.mem_cons_self _ _)
      have hrest : ∀ blk ∈ rest, ∀ t < blk.size,
          sameAt a b (blk.ai + t) (blk.bj + t) = true :=
        fun blk hb => hl blk (List.mem_cons_of_mem _ hb)
      simp only [mergeAdjacent] at hblk
      split at hblk
      case isTrue hadj =>
        refine ih i1 j1 (k1 + k2) ?_ hrest blk hblk
        intro t ht
        by_cases htk : t < k1
        · exact hcur t htk
        · have e1 : i1 + t = i2 + (t - k1) := by omega
          have e2 : j1 + t = j2 + (t - k1) := by omega
          rw [e1, e2]
          exact hm (t - k1) (by simp at ht ⊢; omega)
      case isFalse hadj =>
        rcases List.mem_append.mp hblk with hsing | hrec
        · split at hsing
          · rcases List.mem_singleton.mp hsing with rfl
            exact hcur
          · exact absurd hsing (List.not_mem_nil _)
        · exact ih i2 j2 k2 (fun t ht => hm t (by simpa using ht)) hrest blk hrec

/-! ### Final cursors of a block list -/

/-- The cursor position in `a` after walking all blocks from start `i`. -/
def finalA : List MatchBlock → Nat → Nat
  | [], i => i
  | m :: rest, _ => finalA rest (m.ai + m.size)

/-- The cursor position in `b` after walking all blocks from start `j`. -/
def finalB : List MatchBlock → Nat → Nat
  | [], j => j
  | m :: rest, _ => finalB rest (m.bj + m.size)

lemma finalA_append_single (m : MatchBlock) :
    ∀ (l : List MatchBlock) (i : Nat), finalA (l ++ [m]) i = m.ai + m.size := by
  intro l
  induction l with
  | nil => intro i; rfl
  | cons m2 rest ih => intro i; exact ih _

lemma finalB_append_single (m : MatchBlock) :
    ∀ (l : List MatchBlock) (j : Nat), finalB (l ++ [m]) j = m.bj + m.size := by
  intro l
  induction l with
  | nil => intro j; rfl
  | cons m2 rest ih => intro j; exact ih _

lemma finalA_ge {e1 e2 : Nat} :
    ∀ (l : List MatchBlock) (i j : Nat), Chained i j l e1 e2 → i ≤ finalA l i := by
  intro l
  induction l with
  | nil => intro i j _; exact le_refl _
  | cons m rest ih =>
    intro i j h
    have := ih (m.ai + m.size) (m.bj + m.size) h.2.2
    calc i ≤ m.ai + m.size := by have := h.1; omega
    _ ≤ finalA rest (m.ai + m.size) := this
    _ = finalA (m :: rest) i := rfl

lemma finalB_ge {e1 e2 : Nat} :
    ∀ (l : List MatchBlock) (i j : Nat), Chained i j l e1 e2 → j ≤ finalB l j := by
  intro l
  induction l with
  | nil => intro i j _; exact le_refl _
  | cons m rest ih =>
    intro i j h
    have := ih (m.ai + m.size) (m.bj + m.size) h.2.2
    calc j ≤ m.bj + m.size := by have := h.2.1; omega
    _ ≤ finalB rest (m.bj + m.size) := this
    _ = finalB (m :: rest) j := rfl

/-! ### Invariants of `get_matching_blocks` -/

lemma get_matching_blocks_chained (a b : List α) :
    Chained 0 0 (get_matching_blocks a b) a.length b.length := by
  unfold get_matching_blocks
  refine chained_append (p := a.length) (q := b.length) ?_ ?_
  · exact mergeAdjacent_chained _ 0 0 0
      (matchingBlocksRec_chained a b _ 0 a.length 0 b.length
        (Nat.zero_le _) (Nat.zero_le _))
  · exact ⟨le_refl _, le_refl _, by simp, by simp⟩

lemma get_matching_blocks_matches (a b : List α) :
    ∀ blk ∈ get_matching_blocks a b, ∀ t < blk.size,
      sameAt a b (blk.ai + t) (blk.bj + t) = true := by
  intro blk hblk
  unfold get_matching_blocks at hblk
  rcases List.mem_append.mp hblk with hmerge | hsent
  · exact mergeAdjacent_matches _ 0 0 0 (fun t ht => absurd ht (by omega))
      (matchingBlocksRec_matches a b _ 0 a.length 0 b.length) blk hmerge
  · rcases List.mem_singleton.mp hsent with rfl
    intro t ht
    exact absurd ht (by simp)

lemma get_matching_blocks_finalA (a b : List α) :
    finalA (get_matching_blocks a b) 0 = a.length := by
  unfold get_matching_blocks
  rw [finalA_append_single]
  simp

lemma get_matching_blocks_finalB (a b : List α) :
    finalB (get_matching_blocks a b) 0 = b.length := by
  unfold get_matching_blocks
  rw [finalB_append_single]
  simp

/-! ### Coverage of the opcode walk -/

lemma range'_glue (s m n : Nat) :
    List.range' s m ++ List.range' (s + m) n = List.range' s (m + n) := by
  have h := List.range'_append s m n 1
  rw [Nat.one_mul] at h
  rw [h, Nat.add_comm n m]

lemma opcodesGo_ranges_a :
    ∀ (l : List MatchBlock) (i j e1 e2 : Nat), Chained i j l e1 e2 →
      ((opcodesGo i j l).map (fun op => List.range' op.a1 (op.a2 - op.a1))).flatten
        = List.range' i (finalA l i - i) := by
  intro l
  induction l with
  | nil => intro i j e1 e2 h; simp [opcodesGo, finalA]
  | cons m rest ih =>
    intro i j e1 e2 h
    cases m with
    | mk ai bj s =>
      obtain ⟨h1, h2, h3⟩ := h
      have h1' : i ≤ ai := h1
      have h3' : Chained (ai + s) (bj + s) rest e1 e2 := h3
      have hF : ai + s ≤ finalA rest (ai + s) :=
        le_trans (le_refl _) (finalA_ge rest _ _ h3')
      have htag : ((if i < ai ∧ j < bj then [(⟨Tag.replace, i, ai, j, bj⟩ : Op)]
          else if i < ai then [⟨Tag.delete, i, ai, j, bj⟩]
          else if j < bj then [⟨Tag.insert, i, ai, j, bj⟩]
          else []).map (fun op => List.range' op.a1 (op.a2 - op.a1))).flatten
          = List.range' i (ai - i) := by
        split
        · simp
        · split
          · simp
          · split
            · simp
            · have hai : ai = i := by omega
              subst hai
              simp
      have heq : ((if 0 < s then [(⟨Tag.equal, ai, ai + s, bj, bj + s⟩ : Op)]
          else []).map (fun op => List.range' op.a1 (op.a2 - op.a1))).flatten
          = List.range' ai s := by
        split
        · simp
        · have hs : s = 0 := by omega
          subst hs
          simp
      have hrec := ih (ai + s) (bj + s) e1 e2 h3'
      have hfin : finalA (⟨ai, bj, s⟩ :: rest) i = finalA rest (ai + s) := rfl
      rw [hfin]
      have hsplit : opcodesGo i j (⟨ai, bj, s⟩ :: rest)
          = (if i < ai ∧ j < bj then [(⟨Tag.replace, i, ai, j, bj⟩ : Op)]
             else if i < ai then [⟨Tag.delete, i, ai, j, bj⟩]
             else if j < bj then [⟨Tag.insert, i, ai, j, bj⟩]
             else [])
            ++ (if 0 < s then [(⟨Tag.equal, ai, ai + s, bj, bj + s⟩ : Op)] else [])
            ++ opcodesGo (ai + s) (bj + s) rest := rfl
      rw [hsplit, List.map_append, List.map_append, List.flatten_append,
        List.flatten_append, htag, heq, hrec]
      have g1 : List.range' i (ai - i) ++ List.range' ai s
          = List.range' i ((ai - i) + s) := by
        have hg := range'_glue i (ai - i) s
        rwa [show i + (ai - i) = ai by omega] at hg
      have g2 : List.range' i ((ai - i) + s)
            ++ List.range' (ai + s) (finalA rest (ai + s) - (ai + s))
          = List.range' i (((ai - i) + s) + (finalA rest (ai + s) - (ai + s))) := by
        have hg := range'_glue i ((ai - i) + s) (finalA rest (ai + s) - (ai + s))
        rwa [show i + ((ai - i) + s) = ai + s by omega] at hg
      rw [g1, g2, (show ((ai - i) + s) + (finalA rest (ai + s) - (ai + s))
        = finalA rest (ai + s) - i by omega)]

lemma opcodesGo_ranges_b :
    ∀ (l : List MatchBlock) (i j e1 e2 : Nat), Chained i j l e1 e2 →
      ((opcodesGo i j l).map (fun op => List.range' op.b1 (op.b2 - op.b1))).flatten
        = List.range' j (finalB l j - j) := by
  intro l
  induction l with
  | nil => intro i j e1 e2 h; simp [opcodesGo, finalB]
  | cons m rest ih =>
    intro i j e1 e2 h
    cases m with
    | mk ai bj s =>
      obtain ⟨h1, h2, h3⟩ := h
      have h2' : j ≤ bj := h2
      have h3' : Chained (ai + s) (bj + s) rest e1 e2 := h3
      have hF : bj + s ≤ finalB rest (bj + s) :=
        le_trans (le_refl _) (finalB_ge rest _ _ h3')
      have htag : ((if i < ai ∧ j < bj then [(⟨Tag.replace, i, ai, j, bj⟩ : Op)]
          else if i < ai then [⟨Tag.delete, i, ai, j, bj⟩]
          else if j < bj then [⟨Tag.insert, i, ai, j, bj⟩]
          else []).map (fun op => List.range' op.b1 (op.b2 - op.b1))).flatten
          = List.range' j (bj - j) := by
        split
        · simp
        · split
          case isTrue hc1 hc2 =>
            have hbj : bj = j := by
              rcases Nat.lt_or_ge j bj with hlt | hge
              · exact absurd ⟨hc2, hlt⟩ hc1
              · omega
            subst hbj
            simp
          · split
            · simp
            · have hbj : bj = j := by omega
              subst hbj
              simp
      have heq : ((if 0 < s then [(⟨Tag.equal, ai, ai + s, bj, bj + s⟩ : Op)]
          else []).map (fun op => List.range' op.b1 (op.b2 - op.b1))).flatten
          = List.range' bj s := by
        split
        · simp
        · have hs : s = 0 := by omega
          subst hs
          simp
      have hrec := ih (ai + s) (bj + s) e1 e2 h3'
      have hfin : finalB (⟨ai, bj, s⟩ :: rest) j = finalB rest (bj + s) := rfl
      rw [hfin]
      have hsplit : opcodesGo i j (⟨ai, bj, s⟩ :: rest)
          = (if i < ai ∧ j < bj then [(⟨Tag.replace, i, ai, j, bj⟩ : Op)]
             else if i < ai then [⟨Tag.delete, i, ai, j, bj⟩]
             else if j < bj then [⟨Tag.insert, i, ai, j, bj⟩]
             else [])
            ++ (if 0 < s then [(⟨Tag.equal, ai, ai + s, bj, bj + s⟩ : Op)] else [])
            ++ opcodesGo (ai + s) (bj + s) rest := rfl
      rw [hsplit, List.map_append, List.map_append, List.flatten_append,
        List.flatten_append, htag, heq, hrec]
      have g1 : List.range' j (bj - j) ++ List.range' bj s
          = List.range' j ((bj - j) + s) := by
        have hg := range'_glue j (bj - j) s
        rwa [show j + (bj - j) = bj by omega] at hg
      have g2 : List.range' j ((bj - j) + s)
            ++ List.range' (bj + s) (finalB rest (bj + s) - (bj + s))
          = List.range' j (((bj - j) + s) + (finalB rest (bj + s) - (bj + s))) := by
        have hg := range'_glue j ((bj - j) + s) (finalB rest (bj + s) - (bj + s))
        rwa [show j + ((bj - j) + s) = bj + s by omega] at hg
      rw [g1, g2, (show ((bj - j) + s) + (finalB rest (bj + s) - (bj + s))
        = finalB rest (bj + s) - j by omega)]

/-! ### Shape facts for each opcode kind -/

lemma opcodesGo_tag_facts :
    ∀ (l : List MatchBlock) (i j e1 e2 : Nat), Chained i j l e1 e2 →
      ∀ op ∈ opcodesGo i j l,
        (op.tag = Tag.replace → op.a1 < op.a2 ∧ op.b1 < op.b2) ∧
        (op.tag = Tag.delete → op.a1 < op.a2 ∧ op.b2 = op.b1) ∧
        (op.tag = Tag.insert → op.a2 = op.a1 ∧ op.b1 < op.b2) ∧
        (op.tag = Tag.equal → op.a1 < op.a2 ∧ op.b1 < op.b2) := by
  intro l
  induction l with
  | nil => intro i j e1 e2 h op hop; exact absurd hop (List.not_mem_nil _)
  | cons m rest ih =>
    intro i j e1 e2 h op hop
    cases m with
    | mk ai bj s =>
      obtain ⟨h1, h2, h3⟩ := h
      have h1' : i ≤ ai := h1
      have h2' : j ≤ bj := h2
      have h3' : Chained (ai + s) (bj + s) rest e1 e2 := h3
      have hsplit : opcodesGo i j (⟨ai, bj, s⟩ :: rest)
          = (if i < ai ∧ j < bj then [(⟨Tag.replace, i, ai, j, bj⟩ : Op)]
             else if i < ai then [⟨Tag.delete, i, ai, j, bj⟩]
             else if j < bj then [⟨Tag.insert, i, ai, j, bj⟩]
             else [])
            ++ (if 0 < s then [(⟨Tag.equal, ai, ai + s, bj, bj + s⟩ : Op)] else [])
            ++ opcodesGo (ai + s) (bj + s) rest := rfl
      rw [hsplit] at hop
      rcases List.mem_append.mp hop with hop2 | hrest
      · rcases List.mem_append.mp hop2 with htag | heqop
        · split at htag
          case isTrue hc =>
            rcases List.mem_singleton.mp htag with rfl
            exact ⟨fun _ => ⟨hc.1, hc.2⟩, by simp, by simp, by simp⟩
          case isFalse hc =>
            split at htag
            case isTrue hc2 =>
              rcases List.mem_singleton.mp htag with rfl
              have hbj : bj = j := by
                rcases Nat.lt_or_ge j bj with hlt | hge
                · exact absurd ⟨hc2, hlt⟩ hc
                · omega
              exact ⟨by simp, fun _ => ⟨hc2, hbj⟩, by simp, by simp⟩
            case isFalse hc2 =>
              split at htag
              case isTrue hc3 =>
                rcases List.mem_singleton.mp htag with rfl
                have hai : ai = i := by omega
                exact ⟨by simp, by simp, fun _ => ⟨hai, hc3⟩, by simp⟩
              case isFalse hc3 => exact absurd htag (List.not_mem_nil _)
        · split at heqop
          case isTrue hs =>
            rcases List.mem_singleton.mp heqop with rfl
            exact ⟨by simp, by simp, by simp,
              fun _ => ⟨show ai < ai + s by omega, show bj < bj + s by omega⟩⟩
          case isFalse hs => exact absurd heqop (List.not_mem_nil _)
      · exact ih _ _ _ _ h3' op hrest

/-! ### When every opcode is `equal`, the sequences agree -/

lemma opcodesGo_all_equal {a b : List α} :
    ∀ (l : List MatchBlock) (i j e1 e2 : Nat), Chained i j l e1 e2 →
      (∀ blk ∈ l, ∀ t < blk.size, sameAt a b (blk.ai + t) (blk.bj + t) = true) →
      (∀ op ∈ opcodesGo i j l, op.tag = Tag.equal) →
      i = j →
      finalA l i = finalB l j ∧
      (∀ idx, i ≤ idx → idx < finalA l i → a[idx]? = b[idx]?) := by
  intro l
  induction l with
  | nil =>
    intro i j e1 e2 h hm hops hij
    subst hij
    refine ⟨rfl, ?_⟩
    intro idx hle hlt
    have hfin : finalA ([] : List MatchBlock) i = i := rfl
    rw [hfin] at hlt
    omega
  | cons m rest ih =>
    intro i j e1 e2 h hm hops hij
    subst hij
    cases m with
    | mk ai bj s =>
      obtain ⟨h1, h2, h3⟩ := h
      have h1' : i ≤ ai := h1
      have h2' : i ≤ bj := h2
      have h3' : Chained (ai + s) (bj + s) rest e1 e2 := h3
      have hsplit : opcodesGo i i (⟨ai, bj, s⟩ :: rest)
          = (if i < ai ∧ i < bj then [(⟨Tag.replace, i, ai, i, bj⟩ : Op)]
             else if i < ai then [⟨Tag.delete, i, ai, i, bj⟩]
             else if i < bj then [⟨Tag.insert, i, ai, i, bj⟩]
             else [])
            ++ (if 0 < s then [(⟨Tag.equal, ai, ai + s, bj, bj + s⟩ : Op)] else [])
            ++ opcodesGo (ai + s) (bj + s) rest := rfl
      have hkey : i = ai ∧ i = bj := by
        by_cases hc1 : i < ai
        · by_cases hc2 : i < bj
          · have hmem : (⟨Tag.replace, i, ai, i, bj⟩ : Op)
                ∈ opcodesGo i i (⟨ai, bj, s⟩ :: rest) := by
              rw [hsplit]
              simp [hc1, hc2]
            have := hops _ hmem
            simp at this
          · have hmem : (⟨Tag.delete, i, ai, i, bj⟩ : Op)
                ∈ opcodesGo i i (⟨ai, bj, s⟩ :: rest) := by
              rw [hsplit]
              simp [hc1, hc2]
            have := hops _ hmem
            simp at this
        · by_cases hc2 : i < bj
          · have hmem : (⟨Tag.insert, i, ai, i, bj⟩ : Op)
                ∈ opcodesGo i i (⟨ai, bj, s⟩ :: rest) := by
              rw [hsplit]
              simp [hc1, hc2]
            have := hops _ hmem
            simp at this
          · exact ⟨by omega, by omega⟩
      obtain ⟨hk1, hk2⟩ := hkey
      subst hk1
      subst hk2
      have hops2 : ∀ op ∈ opcodesGo (i + s) (i + s) rest, op.tag = Tag.equal := by
        intro op hop
        refine hops op ?_
        rw [hsplit]
        exact List.mem_append.mpr (Or.inr hop)
      have hm2 : ∀ blk ∈ rest, ∀ t < blk.size,
          sameAt a b (blk.ai + t) (blk.bj + t) = true :=
        fun blk hb => hm blk (List.mem_cons_of_mem _ hb)
      have hIH := ih (i + s) (i + s) e1 e2 h3' hm2 hops2 rfl
      have hfinA : finalA (⟨i, i, s⟩ :: rest) i = finalA rest (i + s) := rfl
      have hfinB : finalB (⟨i, i, s⟩ :: rest) i = finalB rest (i + s) := rfl
      refine ⟨by rw [hfinA, hfinB]; exact hIH.1, ?_⟩
      intro idx hle hlt
      rw [hfinA] at hlt
      by_cases hidx : idx < i + s
      · have hsame := hm ⟨i, i, s⟩ (List.mem_cons_self _ _) (idx - i)
          (by show idx - i < s; omega)
        dsimp only at hsame
        rw [(show i + (idx - i) = idx by omega)] at hsame
        exact sameAt_eq hsame
      · exact hIH.2 idx (by omega) hlt

/-! ### Chunk-level consequences -/

lemma compute_diff_chunks_mem {a b : List α} {c : Chunk}
    (hc : c ∈ compute_diff_chunks a b) :
    ∃ op ∈ get_opcodes a b, op.tag ≠ Tag.equal ∧
      c = { type := op.tag,
            v1_start := (op.a1 : Int), v1_end := (op.a2 : Int) - 1,
            v1_count := (op.a2 : Int) - (op.a1 : Int),
            v2_start := (op.b1 : Int), v2_end := (op.b2 : Int) - 1,
            v2_count := (op.b2 : Int) - (op.b1 : Int) } := by
  unfold compute_diff_chunks at hc
  rcases List.mem_map.mp hc with ⟨op, hop, rfl⟩
  rcases List.mem_filter.mp hop with ⟨h1, h2⟩
  exact ⟨op, h1, by simpa using h2, rfl⟩

lemma chunk_facts {a b : List α} {c : Chunk} (hc : c ∈ compute_diff_chunks a b) :
    c.type ≠ Tag.equal ∧
    (c.type = Tag.replace → 1 ≤ c.v1_count ∧ 1 ≤ c.v2_count) ∧
    (c.type = Tag.delete → 1 ≤ c.v1_count ∧ c.v2_count = 0) ∧
    (c.type = Tag.insert → c.v1_count = 0 ∧ 1 ≤ c.v2_count) ∧
    (c.type = Tag.insert → c.v1_end = c.v1_start - 1) ∧
    (c.type = Tag.delete → c.v2_end = c.v2_start - 1) := by
  obtain ⟨op, hop, hne, rfl⟩ := compute_diff_chunks_mem hc
  unfold get_opcodes at hop
  have hfacts := opcodesGo_tag_facts (get_matching_blocks a b) 0 0 _ _
    (get_matching_blocks_chained a b) op hop
  obtain ⟨hrep, hdel, hins, _⟩ := hfacts
  refine ⟨by simpa using hne, ?_, ?_, ?_, ?_, ?_⟩
  · intro h
    obtain ⟨ha2, hb2⟩ := hrep h
    constructor <;> simp <;> omega
  · intro h
    obtain ⟨ha2, hb2⟩ := hdel h
    constructor <;> simp <;> omega
  · intro h
    obtain ⟨ha2, hb2⟩ := hins h
    constructor <;> simp <;> omega
  · intro h
    obtain ⟨ha2, hb2⟩ := hins h
    simp
    omega
  · intro h
    obtain ⟨ha2, hb2⟩ := hdel h
    simp
    omega

lemma chunk_headline_ge_one {a b : List α} {c : Chunk}
    (hc : c ∈ compute_diff_chunks a b) :
    1 ≤ max c.v1_count c.v2_count := by
  obtain ⟨hne, hrep, hdel, hins, _, _⟩ := chunk_facts hc
  cases htag : c.type with
  | equal => exact absurd htag hne
  | replace => exact le_trans (hrep htag).1 (le_max_left _ _)
  | insert => exact le_trans (hins htag).2 (le_max_right _ _)
  | delete => exact le_trans (hdel htag).1 (le_max_left _ _)

lemma list_int_sum_nonneg : ∀ (l : List Int), (∀ x ∈ l, 0 ≤ x) → 0 ≤ l.sum := by
  intro l
  induction l with
  | nil => intro _; simp
  | cons x xs ih =>
    intro h
    rw [List.sum_cons]
    have h1 := h x (List.mem_cons_self _ _)
    have h2 := ih (fun y hy => h y (List.mem_cons_of_mem _ hy))
    omega

lemma list_int_sum_pos : ∀ (l : List Int), (∀ x ∈ l, 1 ≤ x) → l ≠ [] → 1 ≤ l.sum := by
  intro l
  induction l with
  | nil => intro _ h; exact absurd rfl h
  | cons x xs ih =>
    intro h _
    rw [List.sum_cons]
    have h1 := h x (List.mem_cons_self _ _)
    have h2 := list_int_sum_nonneg xs
      (fun y hy => le_trans (by omega) (h y (List.mem_cons_of_mem _ hy)))
    omega

lemma diff_frame_count_eq_zero_iff (a b : List α) :
    diff_frame_count a b = 0 ↔ compute_diff_chunks a b = [] := by
  constructor
  · intro h
    by_contra hne
    have h1 : 1 ≤ diff_frame_count a b := by
      unfold diff_frame_count
      refine list_int_sum_pos _ ?_ ?_
      · intro x hx
        rcases List.mem_map.mp hx with ⟨c, hc, rfl⟩
        exact chunk_headline_ge_one hc
      · exact fun hmap => hne (List.map_eq_nil_iff.mp hmap)
    omega
  · intro h
    unfold diff_frame_count
    rw [h]
    rfl

lemma chunks_nil_imp_eq {a b : List α} (h : compute_diff_chunks a b = []) :
    a = b := by
  have hfil : (get_opcodes a b).filter (fun op => !(op.tag = Tag.equal)) = [] := by
    unfold compute_diff_chunks at h
    exact List.map_eq_nil_iff.mp h
  have hall : ∀ op ∈ get_opcodes a b, op.tag = Tag.equal := by
    intro op hop
    have := List.filter_eq_nil_iff.mp hfil op hop
    simpa using this
  unfold get_opcodes at hall
  have hAE := opcodesGo_all_equal (a := a) (b := b) (get_matching_blocks a b)
    0 0 a.length b.length (get_matching_blocks_chained a b)
    (get_matching_blocks_matches a b) hall rfl
  obtain ⟨hfin, hcont⟩ := hAE
  have hla : finalA (get_matching_blocks a b) 0 = a.length :=
    get_matching_blocks_finalA a b
  have hlb : finalB (get_matching_blocks a b) 0 = b.length :=
    get_matching_blocks_finalB a b
  have hlen : a.length = b.length := by rw [← hla, ← hlb]; exact hfin
  apply List.ext_getElem?
  intro n
  by_cases hn : n < a.length
  · exact hcont n (Nat.zero_le n) (by rw [hla]; exact hn)
  · rw [List.getElem?_eq_none (by omega), List.getElem?_eq_none (by omega)]

/-! ### Full evaluation on empty inputs -/

lemma foldl_const {β γ : Type} :
    ∀ (l : List β) (init : γ), l.foldl (fun acc _ => acc) init = init := by
  intro l
  induction l with
  | nil => intro init; rfl
  | cons x xs ih => intro init; exact ih init

lemma matchingBlocksRec_empty_a (b : List α) :
    ∀ fuel bhi, matchingBlocksRec ([] : List α) b fuel 0 0 0 bhi = [] := by
  intro fuel bhi
  cases fuel with
  | zero => rfl
  | succ fuel =>
    have hflm : find_longest_match ([] : List α) b 0 0 0 bhi = ⟨0, 0, 0⟩ := rfl
    simp [matchingBlocksRec, hflm]

lemma matchingBlocksRec_empty_b (a : List α) :
    ∀ fuel ahi, matchingBlocksRec a ([] : List α) fuel 0 ahi 0 0 = [] := by
  intro fuel ahi
  cases fuel with
  | zero => rfl
  | succ fuel =>
    have hflm : find_longest_match a ([] : List α) 0 ahi 0 0 = ⟨0, 0, 0⟩ := by
      show (List.range' 0 (ahi - 0)).foldl (fun best _ => best)
        (⟨0, 0, 0⟩ : MatchBlock) = (⟨0, 0, 0⟩ : MatchBlock)
      exact foldl_const _ _
    simp [matchingBlocksRec, hflm]

lemma get_matching_blocks_empty_a (b : List α) :
    get_matching_blocks ([] : List α) b = [⟨0, b.length, 0⟩] := by
  unfold get_matching_blocks
  rw [(show ([] : List α).length = 0 from rfl), matchingBlocksRec_empty_a]
  rfl

lemma get_matching_blocks_empty_b (a : List α) :
    get_matching_blocks a ([] : List α) = [⟨a.length, 0, 0⟩] := by
  unfold get_matching_blocks
  rw [(show ([] : List α).length = 0 from rfl), matchingBlocksRec_empty_b]
  rfl

lemma compute_diff_chunks_empty_a {b : List α} (hb : b ≠ []) :
    compute_diff_chunks ([] : List α) b
      = [⟨Tag.insert, 0, -1, 0, 0, (b.length : Int) - 1, (b.length : Int)⟩] := by
  have hb' : 0 < b.length := List.length_pos.mpr hb
  have hops : get_opcodes ([] : List α) b = [⟨Tag.insert, 0, 0, 0, b.length⟩] := by
    unfold get_opcodes
    rw [get_matching_blocks_empty_a]
    simp [opcodesGo, hb']
  unfold compute_diff_chunks
  rw [hops]
  simp

lemma compute_diff_chunks_empty_b {a : List α} (ha : a ≠ []) :
    compute_diff_chunks a ([] : List α)
      = [⟨Tag.delete, 0, (a.length : Int) - 1, (a.length : Int), 0, -1, 0⟩] := by
  have ha' : 0 < a.length := List.length_pos.mpr ha
  have hops : get_opcodes a ([] : List α) = [⟨Tag.delete, 0, a.length, 0, 0⟩] := by
    unfold get_opcodes
    rw [get_matching_blocks_empty_b]
    simp [opcodesGo, ha']
  unfold compute_diff_chunks
  rw [hops]
  simp

lemma compute_diff_chunks_nil_nil :
    compute_diff_chunks ([] : List α) ([] : List α) = [] := by
  unfold compute_diff_chunks get_opcodes
  rw [get_matching_blocks_empty_a]
  rfl

/-! ### Claim theorems -/

/-- C1: for every pair of hash lists (a, b), the edit operations produced
by the sequence aligner used by `compute_diff_chunks` are in increasing,
non-overlapping, contiguous order over both sequences: concatenating the
half-open a-ranges of all operations, in order, reconstructs [0, len a)
exactly once, and likewise the b-ranges reconstruct [0, len b). -/
theorem c1_opcode_ranges_partition (a b : List α) :
    (((get_opcodes a b).map
        (fun op => List.range' op.a1 (op.a2 - op.a1))).flatten
      = List.range a.length) ∧
    (((get_opcodes a b).map
        (fun op => List.range' op.b1 (op.b2 - op.b1))).flatten
      = List.range b.length) := by
  have hch := get_matching_blocks_chained a b
  constructor
  · have hr := opcodesGo_ranges_a (get_matching_blocks a b) 0 0 _ _ hch
    unfold get_opcodes
    rw [hr, get_matching_blocks_finalA, List.range_eq_range', Nat.sub_zero]
  · have hr := opcodesGo_ranges_b (get_matching_blocks a b) 0 0 _ _ hch
    unfold get_opcodes
    rw [hr, get_matching_blocks_finalB, List.range_eq_range', Nat.sub_zero]

/-- C2 counterexample: the lists [0,0,0] and [0,1,0] have equal length and
differ in exactly one position (index 1), yet the differing-frame count is
2, not 1 — the aligner matches the shared hash 0 across positions and
emits an insert plus a delete instead of a single one-frame replace. -/
theorem c2_counterexample :
    ([0, 0, 0] : List Nat).length = ([0, 1, 0] : List Nat).length ∧
    ([0, 0, 0] : List Nat)[0]? = ([0, 1, 0] : List Nat)[0]? ∧
    ([0, 0, 0] : List Nat)[1]? ≠ ([0, 1, 0] : List Nat)[1]? ∧
    ([0, 0, 0] : List Nat)[2]? = ([0, 1, 0] : List Nat)[2]? ∧
    diff_frame_count ([0, 0, 0] : List Nat) ([0, 1, 0] : List Nat) = 2 := by
  refine ⟨rfl, rfl, by decide, rfl, ?_⟩
  decide

/-- C2 (amended): for every pair of hash lists the differing-frame count
equals the sum over all chunks of max(v1_count, v2_count); for two lists of
equal length differing in at least one position (in particular in exactly
one) the count is at least 1, but it need not equal 1 when a hash value
recurs at different positions. -/
theorem c2_headline_count_amended (a b : List α)
    (hlen : a.length = b.length) (p : Nat) (hp : a[p]? ≠ b[p]?) :
    diff_frame_count a b
      = ((compute_diff_chunks a b).map
          (fun c => max c.v1_count c.v2_count)).sum ∧
    1 ≤ diff_frame_count a b := by
  refine ⟨rfl, ?_⟩
  by_cases hnil : compute_diff_chunks a b = []
  · exact absurd (by rw [chunks_nil_imp_eq hnil]) hp
  · have h0 : diff_frame_count a b ≠ 0 :=
      fun h => hnil ((diff_frame_count_eq_zero_iff a b).mp h)
    unfold diff_frame_count
    refine list_int_sum_pos _ ?_ ?_
    · intro x hx
      rcases List.mem_map.mp hx with ⟨c, hc, rfl⟩
      exact chunk_headline_ge_one hc
    · exact fun hmap => hnil (List.map_eq_nil_iff.mp hmap)

/-- C2 witness: the amended theorem applied to [0] vs [1] at position 0. -/
theorem c2_headline_count_amended_witness :
    ([0] : List Nat).length = ([1] : List Nat).length ∧
    ([0] : List Nat)[0]? ≠ ([1] : List Nat)[0]? ∧
    1 ≤ diff_frame_count ([0] : List Nat) ([1] : List Nat) :=
  ⟨rfl, by decide, (c2_headline_count_amended [0] [1] rfl 0 (by decide)).2⟩

/-- C3: for every Chunk produced by `compute_diff_chunks` from any pair of
hash lists, type = insert iff v1_count = 0, type = delete iff
v2_count = 0, and a replace chunk has both counts at least 1. -/
theorem c3_chunk_type_count_invariant (a b : List α) (c : Chunk)
    (hc : c ∈ compute_diff_chunks a b) :
    (c.type = Tag.insert ↔ c.v1_count = 0) ∧
    (c.type = Tag.delete ↔ c.v2_count = 0) ∧
    (c.type = Tag.replace → 1 ≤ c.v1_count ∧ 1 ≤ c.v2_count) := by
  obtain ⟨hne, hrep, hdel, hins, _, _⟩ := chunk_facts hc
  refine ⟨⟨fun h => (hins h).1, ?_⟩, ⟨fun h => (hdel h).2, ?_⟩, hrep⟩
  · intro h0
    cases htag : c.type with
    | equal => exact absurd htag hne
    | replace => have := (hrep htag).1; omega
    | insert => rfl
    | delete => have := (hdel htag).1; omega
  · intro h0
    cases htag : c.type with
    | equal => exact absurd htag hne
    | replace => have := (hrep htag).2; omega
    | insert => have := (hins htag).2; omega
    | delete => rfl

/-- C3 witness: the single replace chunk of [0] vs [1]. -/
theorem c3_chunk_type_count_invariant_witness :
    (⟨Tag.replace, 0, 0, 1, 0, 0, 1⟩ : Chunk)
        ∈ compute_diff_chunks ([0] : List Nat) [1] ∧
    ((⟨Tag.replace, 0, 0, 1, 0, 0, 1⟩ : Chunk).type = Tag.insert ↔
      (⟨Tag.replace, 0, 0, 1, 0, 0, 1⟩ : Chunk).v1_count = 0) :=
  ⟨by decide, (c3_chunk_type_count_invariant [0] [1] _ (by decide)).1⟩

/-- C4: the report text takes its "identical" branch exactly when the
differing-frame count is 0, and a zero count forces the frame-count delta
len(seq2) - len(seq1) to be 0 as well, so "identical" holds iff both the
count and the delta vanish. -/
theorem c4_result_classification (a b : List α) :
    result_is_identical (diff_frame_count a b) = true ↔
      (diff_frame_count a b = 0 ∧ frame_delta (a.length, b.length) = 0) := by
  constructor
  · intro h
    have h0 : diff_frame_count a b = 0 := by
      unfold result_is_identical at h
      simpa using h
    refine ⟨h0, ?_⟩
    have hab := chunks_nil_imp_eq ((diff_frame_count_eq_zero_iff a b).mp h0)
    unfold frame_delta
    rw [hab]
    simp
  · intro h
    unfold result_is_identical
    simp [h.1]

/-- C5: for every chunk produced by `compute_diff_chunks` and processed by
`process_chunk`, a replace chunk yields a video1 clip, a video2 clip and a
diff clip; a delete chunk yields only a video1 clip and no diff clip; an
insert chunk yields only a video2 clip and no diff clip. -/
theorem c5_clip_applicability (a b : List α) (i : Nat) (c : Chunk)
    (hc : c ∈ compute_diff_chunks a b) :
    (c.type = Tag.replace →
      ((process_chunk i c).clips.video1.isSome = true ∧
       (process_chunk i c).clips.video2.isSome = true ∧
       (process_chunk i c).clips.diff.isSome = true)) ∧
    (c.type = Tag.delete →
      ((process_chunk i c).clips.video1.isSome = true ∧
       (process_chunk i c).clips.video2 = none ∧
       (process_chunk i c).clips.diff = none)) ∧
    (c.type = Tag.insert →
      ((process_chunk i c).clips.video1 = none ∧
       (process_chunk i c).clips.video2.isSome = true ∧
       (process_chunk i c).clips.diff = none)) := by
  refine ⟨?_, ?_, ?_⟩ <;> intro h <;> simp [process_chunk, h]

/-- C5 witness: the replace chunk of [0] vs [1], processed as chunk 0. -/
theorem c5_clip_applicability_witness :
    (⟨Tag.replace, 0, 0, 1, 0, 0, 1⟩ : Chunk)
        ∈ compute_diff_chunks ([0] : List Nat) [1] ∧
    ((⟨Tag.replace, 0, 0, 1, 0, 0, 1⟩ : Chunk).type = Tag.replace →
      ((process_chunk 0 ⟨Tag.replace, 0, 0, 1, 0, 0, 1⟩).clips.video1.isSome = true ∧
       (process_chunk 0 ⟨Tag.replace, 0, 0, 1, 0, 0, 1⟩).clips.video2.isSome = true ∧
       (process_chunk 0 ⟨Tag.replace, 0, 0, 1, 0, 0, 1⟩).clips.diff.isSome = true)) :=
  ⟨by decide, (c5_clip_applicability [0] [1] 0 _ (by decide)).1⟩

/-- C6: for every start_frame ≥ 0 and end_frame ≥ start_frame, the
frames-written count returned by `extract_clip` equals
(end - start + 1) + min(start, CLIP_PADDING_BEFORE) + CLIP_PADDING_AFTER:
the before-padding is clamped at frame 0 and the count shrinks when the
clamp fires; in particular a chunk starting at frame 0 gets before-padding
0. -/
theorem c6_extract_clip_frame_count (s e : Int) (hs : 0 ≤ s) (hse : s ≤ e) :
    extract_clip_total_frames s e
      = (e - s + 1) + min s CLIP_PADDING_BEFORE + CLIP_PADDING_AFTER ∧
    (s = 0 → extract_clip_total_frames s e = (e - s + 1) + CLIP_PADDING_AFTER) := by
  unfold extract_clip_total_frames CLIP_PADDING_BEFORE CLIP_PADDING_AFTER
  dsimp only
  rw [sub_zero, max_eq_right hs, min_eq_right hs]
  constructor
  · omega
  · intro h0
    omega

/-- C6 witness: a clip for a chunk starting at frame 0 and ending at
frame 5. -/
theorem c6_extract_clip_frame_count_witness :
    (0 : Int) ≤ 0 ∧ (0 : Int) ≤ 5 ∧
    extract_clip_total_frames 0 5
      = (5 - 0 + 1) + min 0 CLIP_PADDING_BEFORE + CLIP_PADDING_AFTER :=
  ⟨le_refl _, by decide, (c6_extract_clip_frame_count 0 5 (by decide) (by decide)).1⟩

/-- C7: diffing the empty list against a non-empty list b yields exactly
one Chunk, of type insert, with v2_count = len b; symmetrically a
non-empty list a against the empty list yields exactly one delete Chunk
with v1_count = len a; and two empty lists yield zero Chunks. -/
theorem c7_total_insert_delete (a b : List α) (ha : a ≠ []) (hb : b ≠ []) :
    compute_diff_chunks ([] : List α) b
      = [⟨Tag.insert, 0, -1, 0, 0, (b.length : Int) - 1, (b.length : Int)⟩] ∧
    compute_diff_chunks a ([] : List α)
      = [⟨Tag.delete, 0, (a.length : Int) - 1, (a.length : Int), 0, -1, 0⟩] ∧
    compute_diff_chunks ([] : List α) ([] : List α) = [] :=
  ⟨compute_diff_chunks_empty_a hb, compute_diff_chunks_empty_b ha,
    compute_diff_chunks_nil_nil⟩

/-- C7 witness: the theorem applied to [0] and [1]. -/
theorem c7_total_insert_delete_witness :
    ([0] : List Nat) ≠ [] ∧ ([1] : List Nat) ≠ [] ∧
    compute_diff_chunks ([] : List Nat) [1]
      = [⟨Tag.insert, 0, -1, 0, 0, 0, 1⟩] := by
  refine ⟨by decide, by decide, ?_⟩
  have h := (c7_total_insert_delete ([0] : List Nat) [1]
    (by decide) (by decide)).1
  simpa using h

/-- C8: the tolerance-based chunking mode merges differing frame indices
into one chunk whenever the gap of identical frames between consecutive
differing indices is at most max_same_frames, otherwise starts a new
chunk; concretely compute_chunks [5,6,9,20] 2 = [[5,6,9],[20]]. -/
theorem c8_tolerance_merge_example :
    compute_chunks [5, 6, 9, 20] 2 = [[5, 6, 9], [20]] := by
  decide

/-- C9: the percentage division in the report is never a division by zero:
if the differing-frame count is nonzero then at least one chunk exists and
total_frames = max(len1, len2) is at least 1 (the division branch is only
evaluated in the nonzero-count arm of the report text). -/
theorem c9_percentage_division_safe (a b : List α)
    (h : diff_frame_count a b ≠ 0) :
    compute_diff_chunks a b ≠ [] ∧
    1 ≤ total_frames (a.length, b.length) := by
  have hnil : compute_diff_chunks a b ≠ [] :=
    fun hn => h ((diff_frame_count_eq_zero_iff a b).mpr hn)
  refine ⟨hnil, ?_⟩
  unfold total_frames
  by_contra hlt
  have hla : a.length = 0 := by omega
  have hlb : b.length = 0 := by omega
  have ha : a = [] := List.length_eq_zero.mp hla
  have hb : b = [] := List.length_eq_zero.mp hlb
  subst ha
  subst hb
  exact hnil compute_diff_chunks_nil_nil

/-- C9 witness: the theorem applied to [] and [0]. -/
theorem c9_percentage_division_safe_witness :
    diff_frame_count ([] : List Nat) [0] ≠ 0 ∧
    (compute_diff_chunks ([] : List Nat) [0] ≠ [] ∧
     1 ≤ total_frames (([] : List Nat).length, ([0] : List Nat).length)) :=
  ⟨by decide, c9_percentage_division_safe ([] : List Nat) [0] (by decide)⟩

/-- C10: the inclusive end fields are concretely exclusive-end minus one:
an insert chunk has v1_end = v1_start - 1 (an empty inclusive video1
range, possibly -1) and a delete chunk has v2_end = v2_start - 1; and
`process_chunk` emits these fields unchanged in the per-chunk report
record. -/
theorem c10_inclusive_end_fields (a b : List α) (c : Chunk)
    (hc : c ∈ compute_diff_chunks a b) :
    (c.type = Tag.insert → c.v1_end = c.v1_start - 1) ∧
    (c.type = Tag.delete → c.v2_end = c.v2_start - 1) ∧
    (∀ i, (process_chunk i c).v1_start = c.v1_start ∧
          (process_chunk i c).v1_end = c.v1_end ∧
          (process_chunk i c).v2_start = c.v2_start ∧
          (process_chunk i c).v2_end = c.v2_end) := by
  obtain ⟨_, _, _, _, hie, hde⟩ := chunk_facts hc
  exact ⟨hie, hde, fun i => ⟨rfl, rfl, rfl, rfl⟩⟩

/-- C10 witness: the insert chunk of [0,1] vs [0,1,2]. -/
theorem c10_inclusive_end_fields_witness :
    (⟨Tag.insert, 2, 1, 0, 2, 2, 1⟩ : Chunk)
        ∈ compute_diff_chunks ([0, 1] : List Nat) [0, 1, 2] ∧
    ((⟨Tag.insert, 2, 1, 0, 2, 2, 1⟩ : Chunk).type = Tag.insert →
      (⟨Tag.insert, 2, 1, 0, 2, 2, 1⟩ : Chunk).v1_end
        = (⟨Tag.insert, 2, 1, 0, 2, 2, 1⟩ : Chunk).v1_start - 1) :=
  ⟨by decide, (c10_inclusive_end_fields [0, 1] [0, 1, 2] _ (by decide)).1⟩

end VideoDiff
